import Mathlib

/-!
Verification development for the quantitative CTL model checker over
multi-valued gene-regulatory networks (`src/src`).

The Lean definitions below are shallow embeddings of the Python source:

* `src/src/priority_queue.py` — keyed min/max priority queues,
* `src/src/ctl_formulae.py` — the CTL AST, negation elimination,
  `compute_dov`, the atomic quantitative evaluation and the fixed-point
  evaluation loops for the temporal operators,
* `src/src/weighted_distance.py` — Hamming neighbours, border states,
  weighted Dijkstra distance and extreme-depth search,
* `src/src/multivalued_grn.py` — the state-transition-graph construction.

Python floats are modelled by `PyFloat` (a rational together with the
special values `inf`, `-inf` and `nan`); Python `int`s by `Int`;
Python dicts that map states to labels by plain functions; Python sets by
lists used up to membership.
-/

set_option linter.unusedVariables false
set_option linter.unusedSectionVars false

namespace CTLSat

/-- Extended value type modelling Python floats: a finite rational, the two
infinities, or `nan`. -/
inductive PyFloat where
  | val (q : ℚ)
  | inf
  | ninf
  | nan
  deriving DecidableEq, Repr

namespace PyFloat

/-- Python `<` on floats: any comparison involving `nan` is `False`;
`inf` is strictly above every finite value, `-inf` strictly below. -/
def lt : PyFloat → PyFloat → Bool
  | nan, _ => false
  | _, nan => false
  | ninf, ninf => false
  | ninf, _ => true
  | _, ninf => false
  | inf, _ => false
  | val _, inf => true
  | val a, val b => a < b

/-- Python `>` on floats. -/
def gt (a b : PyFloat) : Bool := lt b a

/-- Python unary minus on floats (`-nan` is `nan`). -/
def neg : PyFloat → PyFloat
  | val q => val (-q)
  | inf => ninf
  | ninf => inf
  | nan => nan

/-- Python float division restricted to the uses in the source:
`inf / inf = nan`, a finite value divided by an infinity is `0`, an
infinity divided by a positive finite value keeps its sign, and finite
by nonzero finite is exact division.  (Division by a finite `0` raises
`ZeroDivisionError` in Python; it is modelled as `nan` and never reached
under the guards of the source.) -/
def div : PyFloat → PyFloat → PyFloat
  | nan, _ => nan
  | _, nan => nan
  | inf, inf => nan
  | inf, ninf => nan
  | ninf, inf => nan
  | ninf, ninf => nan
  | inf, val b => if 0 < b then inf else if b < 0 then ninf else nan
  | ninf, val b => if 0 < b then ninf else if b < 0 then inf else nan
  | val _, inf => val 0
  | val _, ninf => val 0
  | val a, val b => if b = 0 then nan else val (a / b)

/-- The Python test `x > 0` on a float. -/
def gtZero (a : PyFloat) : Bool := lt (val 0) a

end PyFloat

/-! ## 4.A Keyed priority queues (`src/src/priority_queue.py`)

`heapdict.heapdict` is a mapping from items to keys whose `popitem`
removes and returns an entry with the minimal key.  It is modelled by an
association list; `extract_min` selects the first entry holding the
minimal key (the tie-breaking of the heap is unspecified and nothing in
the source relies on it). -/

variable {α : Type} [DecidableEq α]

/-- `item in self.heap` / `self.heap[item]`: key lookup in the queue. -/
def qlookup (q : List (α × ℚ)) (i : α) : Option ℚ :=
  (q.find? (fun p => decide (p.1 = i))).map Prod.snd

/-- `self.heap[item] = key` for a present item: replace the key of the
first entry for that item. -/
def qupdate : List (α × ℚ) → α → ℚ → List (α × ℚ)
  | [], _, _ => []
  | p :: r, i, k => if p.1 = i then (i, k) :: r else p :: qupdate r i k

/-- `MinPriorityQueue.decrease_priority`: insert an absent item with the
given key; update a present item only when the new key is strictly
smaller; otherwise leave the queue unchanged. -/
def decreasePriority (q : List (α × ℚ)) (i : α) (k : ℚ) : List (α × ℚ) :=
  match qlookup q i with
  | none => q ++ [(i, k)]
  | some c => if k < c then qupdate q i k else q

/-- Remove one entry with minimal key, keeping the remaining entries in
order; the first argument is the current best entry. -/
def selectMin : (α × ℚ) → List (α × ℚ) → ((α × ℚ) × List (α × ℚ))
  | best, [] => (best, [])
  | best, p :: r =>
    if p.2 < best.2 then
      let s := selectMin p r
      (s.1, best :: s.2)
    else
      let s := selectMin best r
      (s.1, p :: s.2)

/-- `MinPriorityQueue.extract_min`: `None` on the empty queue, otherwise
an entry with the smallest key together with the rest of the queue. -/
def extractMin : List (α × ℚ) → Option ((α × ℚ) × List (α × ℚ))
  | [] => none
  | p :: r => some (selectMin p r)

/-- `MaxPriorityQueue.increase_priority`: the source stores the negated
key inside the min-structure (`self.heap[item] = -key`); an absent item
is inserted, a present one updated only when `key > -self.heap[item]`. -/
def increasePriority (q : List (α × ℚ)) (i : α) (k : ℚ) : List (α × ℚ) :=
  match qlookup q i with
  | none => q ++ [(i, -k)]
  | some c => if -c < k then qupdate q i (-k) else q

/-- `MaxPriorityQueue.extract_max`: pop the minimal stored (negated) key
and return the item with the negation of the stored key. -/
def extractMax : List (α × ℚ) → Option ((α × ℚ) × List (α × ℚ))
  | [] => none
  | p :: r =>
    let s := selectMin p r
    some ((s.1.1, -s.1.2), s.2)

theorem selectMin_entry_mem (b : α × ℚ) (l : List (α × ℚ)) :
    (selectMin b l).1 = b ∨ (selectMin b l).1 ∈ l := by
  induction l generalizing b with
  | nil => simp [selectMin]
  | cons p r ih =>
    simp only [selectMin]
    by_cases h : p.2 < b.2
    · simp only [h, if_true]
      rcases ih p with h1 | h1
      · right; simp [h1]
      · right; simp [h1]
    · simp only [h, if_false]
      rcases ih b with h1 | h1
      · left; exact h1
      · right; simp [h1]

theorem selectMin_key_le (b : α × ℚ) (l : List (α × ℚ)) :
    (selectMin b l).1.2 ≤ b.2 ∧ ∀ p ∈ l, (selectMin b l).1.2 ≤ p.2 := by
  induction l generalizing b with
  | nil => simp [selectMin]
  | cons p r ih =>
    simp only [selectMin]
    by_cases h : p.2 < b.2
    · simp only [h, if_true]
      obtain ⟨h1, h2⟩ := ih p
      refine ⟨le_trans h1 (le_of_lt h), ?_⟩
      intro x hx
      rcases List.mem_cons.mp hx with rfl | hx
      · exact h1
      · exact h2 x hx
    · simp only [h, if_false]
      obtain ⟨h1, h2⟩ := ih b
      refine ⟨h1, ?_⟩
      intro x hx
      rcases List.mem_cons.mp hx with rfl | hx
      · exact le_trans h1 (le_of_not_lt h)
      · exact h2 x hx

theorem selectMin_rest_mem (b : α × ℚ) (l : List (α × ℚ)) :
    ∀ p ∈ (selectMin b l).2, p = b ∨ p ∈ l := by
  induction l generalizing b with
  | nil => simp [selectMin]
  | cons p r ih =>
    simp only [selectMin]
    by_cases h : p.2 < b.2
    · simp only [h, if_true]
      intro x hx
      rcases List.mem_cons.mp hx with rfl | hx
      · left; rfl
      · rcases ih p x hx with h1 | h1
        · right; simp [h1]
        · right; simp [h1]
    · simp only [h, if_false]
      intro x hx
      rcases List.mem_cons.mp hx with rfl | hx
      · right; simp
      · rcases ih b x hx with h1 | h1
        · left; exact h1
        · right; simp [h1]

/-- C7, part used below: the key returned by `extract_min` bounds every
key still in the queue from below. -/
theorem extractMin_le (q : List (α × ℚ)) (e : α × ℚ) (q' : List (α × ℚ))
    (h : extractMin q = some (e, q')) : ∀ p ∈ q, e.2 ≤ p.2 := by
  cases q with
  | nil => simp [extractMin] at h
  | cons b r =>
    simp only [extractMin, Option.some.injEq] at h
    have h1 : (selectMin b r).1 = e := congrArg Prod.fst h
    intro x hx
    rcases List.mem_cons.mp hx with rfl | hx
    · have := (selectMin_key_le x r).1
      rw [h1] at this; exact this
    · have := (selectMin_key_le b r).2 x hx
      rw [h1] at this; exact this

theorem extractMin_rest (q : List (α × ℚ)) (e : α × ℚ) (q' : List (α × ℚ))
    (h : extractMin q = some (e, q')) : ∀ p ∈ q', p ∈ q := by
  cases q with
  | nil => simp [extractMin] at h
  | cons b r =>
    simp only [extractMin, Option.some.injEq] at h
    have h2 : (selectMin b r).2 = q' := congrArg Prod.snd h
    intro x hx
    rw [← h2] at hx
    rcases selectMin_rest_mem b r x hx with h3 | h3
    · simp [h3]
    · simp [h3]

theorem extractMin_entry_mem (q : List (α × ℚ)) (e : α × ℚ) (q' : List (α × ℚ))
    (h : extractMin q = some (e, q')) : e ∈ q := by
  cases q with
  | nil => simp [extractMin] at h
  | cons b r =>
    simp only [extractMin, Option.some.injEq] at h
    have h1 : (selectMin b r).1 = e := congrArg Prod.fst h
    rcases selectMin_entry_mem b r with h2 | h2
    · rw [h1] at h2; simp [← h2]
    · rw [h1] at h2; simp [h2]

theorem qlookup_qupdate_self (q : List (α × ℚ)) (i : α) (k c : ℚ)
    (h : qlookup q i = some c) : qlookup (qupdate q i k) i = some k := by
  induction q with
  | nil => simp [qlookup] at h
  | cons p r ih =>
    by_cases hp : p.1 = i
    · simp [qupdate, hp, qlookup, List.find?]
    · simp only [qlookup, List.find?, hp, decide_eq_false hp] at h ⊢
      simp only [qupdate, hp, if_false]
      simp only [qlookup, List.find?, decide_eq_false hp] at ih ⊢
      exact ih h

theorem qlookup_qupdate_ne (q : List (α × ℚ)) (i j : α) (k : ℚ)
    (h : j ≠ i) : qlookup (qupdate q i k) j = qlookup q j := by
  induction q with
  | nil => simp [qupdate]
  | cons p r ih =>
    by_cases hp : p.1 = i
    · simp only [qupdate, hp, if_true]
      simp only [qlookup, List.find?]
      have hji : decide (i = j) = false := by simp [Ne.symm h]
      have hpj : decide (p.1 = j) = false := by simp [hp, Ne.symm h]
      simp [hji, hpj]
    · simp only [qupdate, hp, if_false]
      simp only [qlookup, List.find?] at ih ⊢
      cases hd : decide (p.1 = j) with
      | true => simp [hd]
      | false => simp only [hd]; exact ih

theorem qlookup_append_ne (q : List (α × ℚ)) (i j : α) (k : ℚ)
    (h : j ≠ i) : qlookup (q ++ [(i, k)]) j = qlookup q j := by
  induction q with
  | nil => simp [qlookup, List.find?, Ne.symm h]
  | cons p r ih =>
    simp only [List.cons_append, qlookup, List.find?] at ih ⊢
    cases hd : decide (p.1 = j) with
    | true => simp [hd]
    | false => simp only [hd]; exact ih

theorem qlookup_append_self (q : List (α × ℚ)) (i : α) (k : ℚ)
    (h : qlookup q i = none) : qlookup (q ++ [(i, k)]) i = some k := by
  induction q with
  | nil => simp [qlookup, List.find?]
  | cons p r ih =>
    simp only [qlookup, List.find?] at h ih ⊢
    cases hd : decide (p.1 = i) with
    | true => simp [hd] at h
    | false =>
      simp only [hd] at h ⊢
      exact ih h

/-- C7: contract of the keyed min-priority queue
(`src/src/priority_queue.py`): `decrease_priority` inserts an absent item
with the given key, updates a present item only when the new key is
strictly smaller and is a no-op otherwise, never touching other items;
and with no intervening mutations two successive `extract_min` calls
return non-decreasing keys. -/
theorem minqueue_contract {α : Type} [DecidableEq α]
    (q : List (α × ℚ)) (i j : α) (k c : ℚ)
    (e1 e2 : α × ℚ) (q1 q2 : List (α × ℚ)) :
    (qlookup q i = none → decreasePriority q i k = q ++ [(i, k)])
    ∧ (qlookup q i = some c → k < c →
        qlookup (decreasePriority q i k) i = some k)
    ∧ (qlookup q i = some c → c ≤ k → decreasePriority q i k = q)
    ∧ (j ≠ i → qlookup (decreasePriority q i k) j = qlookup q j)
    ∧ (extractMin q = some (e1, q1) → extractMin q1 = some (e2, q2) →
        e1.2 ≤ e2.2) := by
  refine ⟨?_, ?_, ?_, ?_, ?_⟩
  · intro h; simp [decreasePriority, h]
  · intro h hk
    simp only [decreasePriority, h, hk, if_true]
    exact qlookup_qupdate_self q i k c h
  · intro h hk
    simp [decreasePriority, h, not_lt.mpr hk]
  · intro hij
    unfold decreasePriority
    cases h : qlookup q i with
    | none => exact qlookup_append_ne q i j k hij
    | some c =>
      by_cases hk : k < c
      · simp only [hk, if_true]
        exact qlookup_qupdate_ne q i j k hij
      · simp [hk]
  · intro h1 h2
    have hmem : e2 ∈ q1 := extractMin_entry_mem q1 e2 q2 h2
    have hq : e2 ∈ q := extractMin_rest q e1 q1 h1 e2 hmem
    exact extractMin_le q e1 q1 h1 e2 hq

/-- Witness for C7: concrete instances of the update rule and of the
non-decreasing pop order. -/
theorem minqueue_contract_witness :
    qlookup (decreasePriority [((0 : ℕ), (3 : ℚ))] 0 1) 0 = some 1
    ∧ ((((1 : ℕ), (1 : ℚ)) : ℕ × ℚ).2 ≤ (((0 : ℕ), (2 : ℚ)) : ℕ × ℚ).2) :=
  ⟨(minqueue_contract [((0 : ℕ), (3 : ℚ))] 0 0 1 3 (0, 0) (0, 0) [] []).2.1
      (by decide) (by decide),
   (minqueue_contract [((0 : ℕ), (2 : ℚ)), ((1 : ℕ), (1 : ℚ))] 0 0 0 0
      ((1 : ℕ), (1 : ℚ)) ((0 : ℕ), (2 : ℚ)) [((0 : ℕ), (2 : ℚ))] []).2.2.2.2
      (by decide) (by decide)⟩

/-! ## C8: behaviour of the queue mutations at arbitrary float keys

The claim asserts that `decrease_priority` / `increase_priority` raise
`InvalidKey` exactly on non-finite keys.  The source contains no key
validation at all (there is no `InvalidKey` anywhere in the repository):
the same insert/update rule is applied to every key.  The queues below
are the same functions with keys ranging over `PyFloat`, so that
non-finite keys can be passed. -/

/-- Key lookup, float-keyed variant. -/
def qlookupF (q : List (α × PyFloat)) (i : α) : Option PyFloat :=
  (q.find? (fun p => decide (p.1 = i))).map Prod.snd

/-- In-place key replacement, float-keyed variant. -/
def qupdateF : List (α × PyFloat) → α → PyFloat → List (α × PyFloat)
  | [], _, _ => []
  | p :: r, i, k => if p.1 = i then (i, k) :: r else p :: qupdateF r i k

/-- `MinPriorityQueue.decrease_priority` at an arbitrary float key:
`key < self.heap[item]` is the Python float comparison. -/
def decreasePriorityF (q : List (α × PyFloat)) (i : α) (k : PyFloat) :
    List (α × PyFloat) :=
  match qlookupF q i with
  | none => q ++ [(i, k)]
  | some c => if PyFloat.lt k c then qupdateF q i k else q

/-- `MaxPriorityQueue.increase_priority` at an arbitrary float key: the
negated key is stored, and a present item is updated only when
`key > -self.heap[item]`. -/
def increasePriorityF (q : List (α × PyFloat)) (i : α) (k : PyFloat) :
    List (α × PyFloat) :=
  match qlookupF q i with
  | none => q ++ [(i, k.neg)]
  | some c => if PyFloat.lt c.neg k then qupdateF q i k.neg else q

theorem qlookupF_qupdateF_self (q : List (α × PyFloat)) (i : α)
    (k c : PyFloat) (h : qlookupF q i = some c) :
    qlookupF (qupdateF q i k) i = some k := by
  induction q with
  | nil => simp [qlookupF] at h
  | cons p r ih =>
    by_cases hp : p.1 = i
    · simp [qupdateF, hp, qlookupF, List.find?]
    · simp only [qlookupF, List.find?, decide_eq_false hp] at h ⊢
      simp only [qupdateF, hp, if_false]
      simp only [qlookupF, List.find?, decide_eq_false hp] at ih ⊢
      exact ih h

theorem qlookupF_append_self (q : List (α × PyFloat)) (i : α) (k : PyFloat)
    (h : qlookupF q i = none) : qlookupF (q ++ [(i, k)]) i = some k := by
  induction q with
  | nil => simp [qlookupF, List.find?]
  | cons p r ih =>
    simp only [qlookupF, List.find?] at h ih ⊢
    cases hd : decide (p.1 = i) with
    | true => simp [hd] at h
    | false =>
      simp only [hd] at h ⊢
      exact ih h

/-- Counterexample to C8 as stated: the queue mutations do not fail on a
non-finite key — `decrease_priority` inserts `+inf` and
`increase_priority` inserts `nan` (stored negated) exactly as they would
a finite key, instead of raising `InvalidKey`. -/
theorem queue_accepts_nonfinite_key :
    decreasePriorityF ([] : List (ℕ × PyFloat)) 0 PyFloat.inf
      = [(0, PyFloat.inf)]
    ∧ increasePriorityF ([] : List (ℕ × PyFloat)) 0 PyFloat.nan
      = [(0, PyFloat.nan)]
    ∧ qlookupF (decreasePriorityF ([] : List (ℕ × PyFloat)) 0 PyFloat.inf) 0
      = some PyFloat.inf := by
  refine ⟨rfl, rfl, rfl⟩

/-- C8, amended: the queue mutations never fail; every key, finite or
not, is processed by the same insert/update rule.  The stored key after
`decrease_priority` is the new key on insertion, and otherwise the
Python-float minimum of old and new; `increase_priority` stores the
negation of the winning key. -/
theorem queue_mutations_total {α : Type} [DecidableEq α]
    (q : List (α × PyFloat)) (i : α) (k : PyFloat) :
    qlookupF (decreasePriorityF q i k) i
      = some (match qlookupF q i with
              | none => k
              | some c => if PyFloat.lt k c then k else c)
    ∧ qlookupF (increasePriorityF q i k) i
      = some (match qlookupF q i with
              | none => k.neg
              | some c => if PyFloat.lt c.neg k then k.neg else c) := by
  constructor
  · unfold decreasePriorityF
    cases h : qlookupF q i with
    | none => exact qlookupF_append_self q i k h
    | some c =>
      by_cases hk : PyFloat.lt k c
      · simp only [hk, if_true]
        exact qlookupF_qupdateF_self q i k c h
      · simp [hk, h]
  · unfold increasePriorityF
    cases h : qlookupF q i with
    | none => exact qlookupF_append_self q i k.neg h
    | some c =>
      by_cases hk : PyFloat.lt c.neg k
      · simp only [hk, if_true]
        exact qlookupF_qupdateF_self q i k.neg c h
      · simp [hk, h]

/-! ## 4.C Domain-of-validity algebra (`src/src/ctl_formulae.py`)

States are tuples of Python ints, modelled by `List ℤ`.  The ordered
`max_activities` mapping is modelled by an association list
`List (String × ℤ)` (Python dicts preserve insertion order and have
unique keys). -/

/-- Python `range(a, b)` as a list of integers. -/
def pyRange (a b : ℤ) : List ℤ :=
  (List.range (b - a).toNat).map (fun n => a + Int.ofNat n)

theorem mem_pyRange (a b x : ℤ) : x ∈ pyRange a b ↔ a ≤ x ∧ x < b := by
  unfold pyRange
  rw [List.mem_map]
  constructor
  · rintro ⟨n, hn, rfl⟩
    rw [List.mem_range] at hn
    simp only [Int.ofNat_eq_natCast]
    omega
  · rintro ⟨h1, h2⟩
    refine ⟨(x - a).toNat, ?_, ?_⟩
    · rw [List.mem_range]; omega
    · simp only [Int.ofNat_eq_natCast]; omega

/-- `itertools.product` over a list of domains, in document order. -/
def cartProd : List (List ℤ) → List (List ℤ)
  | [] => [[]]
  | d :: ds => d.flatMap (fun x => (cartProd ds).map (fun t => x :: t))

theorem mem_cartProd (ds : List (List ℤ)) (s : List ℤ) :
    s ∈ cartProd ds ↔ List.Forall₂ (fun x d => x ∈ d) s ds := by
  induction ds generalizing s with
  | nil =>
    simp [cartProd, List.forall₂_nil_right_iff]
  | cons d ds ih =>
    simp only [cartProd, List.mem_flatMap, List.mem_map,
      List.forall₂_cons_right_iff]
    constructor
    · rintro ⟨x, hx, t, ht, rfl⟩
      exact ⟨x, t, hx, (ih t).mp ht, rfl⟩
    · rintro ⟨x, t, hx, ht, rfl⟩
      exact ⟨x, hx, t, (ih t).mpr ht, rfl⟩

/-- The comparison operator of an atomic proposition (the parser only
produces `>=` and `<=`). -/
inductive CmpOp where
  | ge
  | le
  deriving DecidableEq, Repr

/-- The ordered `max_activities` mapping. -/
abbrev Vars := List (String × ℤ)

/-- `max_activities[v]` (`None` models the `KeyError` on a missing
variable). -/
def lookupVar (vars : Vars) (v : String) : Option ℤ :=
  (vars.find? (fun p => decide (p.1 = v))).map Prod.snd

/-- The atomic stratum of the CTL AST (`AtomicProposition`, `Negation`,
`Union`, `Intersection` in `src/src/ctl_formulae.py`). -/
inductive AtomicFml where
  | ap (var : String) (op : CmpOp) (value : ℤ)
  | negation (operand : AtomicFml)
  | union (left right : AtomicFml)
  | intersection (left right : AtomicFml)
  deriving DecidableEq, Repr

/-- `compute_dov` of the atomic stratum.  For an atomic proposition the
source takes `range(value, max_val + 1)` for `>=` and
`range(0, value + 1)` for `<=` — with no clamping of `value` — and the
Cartesian product with the full range of every other variable.  `Union`
and `Intersection` are set union and intersection (modelled on lists up
to membership); `Negation.compute_dov` raises `NotImplementedError`
(`none`), and a missing variable raises `KeyError` (`none`). -/
def computeDov : AtomicFml → Vars → Option (List (List ℤ))
  | .ap v op k, vars =>
    match lookupVar vars v with
    | none => none
    | some maxVal =>
      let validValues :=
        match op with
        | .ge => pyRange k (maxVal + 1)
        | .le => pyRange 0 (k + 1)
      some (cartProd (vars.map
        (fun p => if p.1 = v then validValues else pyRange 0 (p.2 + 1))))
  | .negation _, _ => none
  | .union l r, vars => do
      let a ← computeDov l vars
      let b ← computeDov r vars
      pure (a ++ b.filter (fun s => !(decide (s ∈ a))))
  | .intersection l r, vars => do
      let a ← computeDov l vars
      let b ← computeDov r vars
      pure (a.filter (fun s => decide (s ∈ b)))

/-- The full state space `∏ range(0, m_i + 1)` derived from the ordered
`max_activities` mapping (as in `compute_dov_complement` and
`_generate_all_states`). -/
def fullSpace (vars : Vars) : List (List ℤ) :=
  cartProd (vars.map (fun p => pyRange 0 (p.2 + 1)))

/-- Counterexample to C6 as stated: for the atomic proposition
`x >= -1` over a single variable with maximum activity `1`, the source
does not clamp the threshold at `0`; the returned set contains the tuple
`(-1,)`, which lies outside the full state space, so the set is neither
the clamped set of the claim nor a subset of the state space. -/
theorem compute_dov_not_clamped :
    ∃ dl, computeDov (.ap "x" .ge (-1)) [("x", 1)] = some dl
      ∧ [(-1 : ℤ)] ∈ dl
      ∧ [(-1 : ℤ)] ∉ fullSpace [("x", 1)] := by
  refine ⟨_, rfl, by decide, by decide⟩

/-- C6, amended: `compute_dov` of `AP(v, op, k)` returns exactly the
tuples of length `|vars|` whose `v`-coordinate lies in `[k, m_v]` for
`>=` (respectively `[0, k]` for `<=`) — without clamping `k` — and whose
other coordinates range over `[0, m_i]`.  The result is a subset of the
full state space only when the threshold already lies inside the
variable's range. -/
theorem compute_dov_ap_characterisation (vars : Vars) (v : String)
    (op : CmpOp) (k m : ℤ) (s : List ℤ)
    (h : lookupVar vars v = some m) :
    ∃ dl, computeDov (.ap v op k) vars = some dl ∧
      (s ∈ dl ↔ s.length = vars.length ∧
        ∀ i (hi : i < vars.length),
          if (vars.get ⟨i, hi⟩).1 = v then
            (match op with
             | .ge => k ≤ s.getD i 0 ∧ s.getD i 0 ≤ m
             | .le => 0 ≤ s.getD i 0 ∧ s.getD i 0 ≤ k)
          else 0 ≤ s.getD i 0 ∧ s.getD i 0 ≤ (vars.get ⟨i, hi⟩).2) := by
  refine ⟨_, by rw [computeDov, h], ?_⟩
  rw [mem_cartProd, List.forall₂_iff_get]
  have hlen : (vars.map (fun p =>
      if p.1 = v then
        (match op with
         | .ge => pyRange k (m + 1)
         | .le => pyRange 0 (k + 1))
      else pyRange 0 (p.2 + 1))).length = vars.length := List.length_map _ _
  constructor
  · rintro ⟨h1, h2⟩
    rw [hlen] at h1
    refine ⟨h1, ?_⟩
    intro i hi
    have hs : i < s.length := by omega
    have hm := h2 i hs (by rw [hlen]; exact hi)
    simp only [List.get_eq_getElem, List.getElem_map] at hm
    rw [List.getD_eq_getElem s 0 hs]
    simp only [List.get_eq_getElem]
    by_cases hv : (vars[i]).1 = v
    · simp only [hv, if_true] at hm ⊢
      cases op with
      | ge =>
        rw [mem_pyRange] at hm
        exact ⟨hm.1, by omega⟩
      | le =>
        rw [mem_pyRange] at hm
        exact ⟨hm.1, by omega⟩
    · simp only [hv, if_false] at hm ⊢
      rw [mem_pyRange] at hm
      exact ⟨hm.1, by omega⟩
  · rintro ⟨h1, h2⟩
    refine ⟨by rw [hlen, h1], ?_⟩
    intro i hs hi2
    have hi : i < vars.length := by rw [hlen] at hi2; exact hi2
    have hm := h2 i hi
    simp only [List.get_eq_getElem, List.getElem_map]
    rw [List.getD_eq_getElem s 0 hs] at hm
    simp only [List.get_eq_getElem] at hm
    by_cases hv : (vars[i]).1 = v
    · simp only [hv, if_true] at hm ⊢
      cases op with
      | ge => rw [mem_pyRange]; exact ⟨hm.1, by omega⟩
      | le => rw [mem_pyRange]; exact ⟨hm.1, by omega⟩
    · simp only [hv, if_false] at hm ⊢
      rw [mem_pyRange]
      exact ⟨hm.1, by omega⟩

/-- Witness for the amended C6 at the counterexample input: the tuple
`(-1,)` is characterised as a member because `-1 ≤ -1 ≤ 1`, exposing the
missing clamp. -/
theorem compute_dov_ap_characterisation_witness :
    ∃ dl, computeDov (.ap "x" .ge (-1)) [("x", 1)] = some dl ∧
      ([(-1 : ℤ)] ∈ dl ↔ ([(-1 : ℤ)] : List ℤ).length = ([("x", 1)] : Vars).length ∧
        ∀ i (hi : i < ([("x", 1)] : Vars).length),
          if (([("x", 1)] : Vars).get ⟨i, hi⟩).1 = "x" then
            (-1 : ℤ) ≤ ([(-1 : ℤ)] : List ℤ).getD i 0
              ∧ ([(-1 : ℤ)] : List ℤ).getD i 0 ≤ 1
          else 0 ≤ ([(-1 : ℤ)] : List ℤ).getD i 0
              ∧ ([(-1 : ℤ)] : List ℤ).getD i 0 ≤ (([("x", 1)] : Vars).get ⟨i, hi⟩).2) :=
  compute_dov_ap_characterisation [("x", 1)] "x" .ge (-1) 1 [(-1)] (by decide)

/-! ## 4.E The state stratum of the AST and negation elimination
(`src/src/ctl_formulae.py`) -/

/-- The state stratum of the CTL AST.  The source has no explicit lift
node: an atomic-stratum object is itself a `StateFormula`; `atom`
records that embedding. -/
inductive StateFml where
  | atom (a : AtomicFml)
  | boolean (value : Bool)
  | conjunction (left right : StateFml)
  | disjunction (left right : StateFml)
  | ag (operand : StateFml)
  | eg (operand : StateFml)
  | af (operand : StateFml)
  | ef (operand : StateFml)
  | ax (operand : StateFml)
  | ex (operand : StateFml)
  | au (left right : StateFml)
  | eu (left right : StateFml)
  | aw (left right : StateFml)
  | ew (left right : StateFml)
  deriving DecidableEq, Repr

/-- `negate` of the atomic stratum: thresholds are shifted for atomic
propositions, `Negation.negate` delegates to the operand, and the
De Morgan duals are produced for `Union` / `Intersection`. -/
def negateA : AtomicFml → AtomicFml
  | .ap v .ge k => .ap v .le (k - 1)
  | .ap v .le k => .ap v .ge (k + 1)
  | .negation a => negateA a
  | .union l r => .intersection (.negation l) (.negation r)
  | .intersection l r => .union (.negation l) (.negation r)

/-- The `isinstance(child, Negation)` guard shared by every
`eliminate_negation` method: a child that is a `Negation` object is
replaced by `child.negate()` before recursing. -/
def negIfNeg (x : AtomicFml) : AtomicFml :=
  match x with
  | .negation _ => negateA x
  | _ => x

/-- Termination measure for the negation-elimination rewrite. -/
def wtA : AtomicFml → ℕ
  | .ap _ _ _ => 1
  | .negation a => 2 * wtA a
  | .union l r => wtA l + wtA r + 1
  | .intersection l r => wtA l + wtA r + 1

theorem wtA_pos (a : AtomicFml) : 1 ≤ wtA a := by
  induction a with
  | ap v op k => simp [wtA]
  | negation a ih => simp only [wtA]; omega
  | union l r ihl ihr => simp only [wtA]; omega
  | intersection l r ihl ihr => simp only [wtA]; omega

theorem wtA_negateA (a : AtomicFml) : wtA (negateA a) ≤ 2 * wtA a := by
  induction a with
  | ap v op k => cases op <;> simp [negateA, wtA]
  | negation a ih => simp only [negateA, wtA]; omega
  | union l r ihl ihr => simp only [negateA, wtA]; omega
  | intersection l r ihl ihr => simp only [negateA, wtA]; omega

theorem wtA_negIfNeg (x : AtomicFml) : wtA (negIfNeg x) ≤ wtA x := by
  cases x with
  | negation a =>
    have := wtA_negateA a
    simp only [negIfNeg, negateA, wtA]
    omega
  | ap v op k => simp [negIfNeg]
  | union l r => simp [negIfNeg]
  | intersection l r => simp [negIfNeg]

/-- `eliminate_negation` on the atomic stratum.  Note the source of
`Negation.eliminate_negation`: a double negation strips two layers and
recurses, but a single negation returns `self` unchanged. -/
def eliminateNegationA : AtomicFml → AtomicFml
  | .ap v op k => .ap v op k
  | .negation a =>
    match a with
    | .negation b => eliminateNegationA b
    | _ => .negation a
  | .union l r =>
      .union (eliminateNegationA (negIfNeg l)) (eliminateNegationA (negIfNeg r))
  | .intersection l r =>
      .intersection (eliminateNegationA (negIfNeg l))
        (eliminateNegationA (negIfNeg r))
termination_by a => wtA a
decreasing_by
  all_goals first
    | (rename_i l r
       have h1 := wtA_negIfNeg l
       have h2 := wtA_negIfNeg r
       have h3 := wtA_pos l
       have h4 := wtA_pos r
       simp only [wtA]; omega)
    | (rename_i b
       have := wtA_pos b
       simp only [wtA]; omega)

/-- A state-stratum child that is a `Negation` object is replaced by
`child.negate()` (an atomic-stratum formula) before the recursive
`eliminate_negation` call. -/
def negIfNegS (c : StateFml) : StateFml :=
  match c with
  | .atom (.negation x) => .atom (negateA x)
  | _ => c

/-- Termination measure on the state stratum. -/
def wtS : StateFml → ℕ
  | .atom a => wtA a
  | .boolean _ => 1
  | .conjunction l r => wtS l + wtS r + 1
  | .disjunction l r => wtS l + wtS r + 1
  | .ag o => wtS o + 1
  | .eg o => wtS o + 1
  | .af o => wtS o + 1
  | .ef o => wtS o + 1
  | .ax o => wtS o + 1
  | .ex o => wtS o + 1
  | .au l r => wtS l + wtS r + 1
  | .eu l r => wtS l + wtS r + 1
  | .aw l r => wtS l + wtS r + 1
  | .ew l r => wtS l + wtS r + 1

theorem wtS_negIfNegS (c : StateFml) : wtS (negIfNegS c) ≤ wtS c := by
  cases c with
  | atom a =>
    cases a with
    | negation x =>
      have := wtA_negateA x
      simp only [negIfNegS, wtS, wtA]
      omega
    | ap v op k => simp [negIfNegS]
    | union l r => simp [negIfNegS]
    | intersection l r => simp [negIfNegS]
  | boolean b => simp [negIfNegS]
  | conjunction l r => simp [negIfNegS]
  | disjunction l r => simp [negIfNegS]
  | ag o => simp [negIfNegS]
  | eg o => simp [negIfNegS]
  | af o => simp [negIfNegS]
  | ef o => simp [negIfNegS]
  | ax o => simp [negIfNegS]
  | ex o => simp [negIfNegS]
  | au l r => simp [negIfNegS]
  | eu l r => simp [negIfNegS]
  | aw l r => simp [negIfNegS]
  | ew l r => simp [negIfNegS]

theorem wtS_pos (c : StateFml) : 1 ≤ wtS c := by
  cases c with
  | atom a => exact wtA_pos a
  | boolean b => simp [wtS]
  | conjunction l r => simp only [wtS]; omega
  | disjunction l r => simp only [wtS]; omega
  | ag o => simp only [wtS]; omega
  | eg o => simp only [wtS]; omega
  | af o => simp only [wtS]; omega
  | ef o => simp only [wtS]; omega
  | ax o => simp only [wtS]; omega
  | ex o => simp only [wtS]; omega
  | au l r => simp only [wtS]; omega
  | eu l r => simp only [wtS]; omega
  | aw l r => simp only [wtS]; omega
  | ew l r => simp only [wtS]; omega

/-- `eliminate_negation` on the state stratum: each class first replaces
`Negation` children by their `negate()` and then recursively eliminates;
an atomic-stratum root dispatches to the atomic method. -/
def eliminateNegation : StateFml → StateFml
  | .atom a => .atom (eliminateNegationA a)
  | .boolean b => .boolean b
  | .conjunction l r =>
      .conjunction (eliminateNegation (negIfNegS l)) (eliminateNegation (negIfNegS r))
  | .disjunction l r =>
      .disjunction (eliminateNegation (negIfNegS l)) (eliminateNegation (negIfNegS r))
  | .ag o => .ag (eliminateNegation (negIfNegS o))
  | .eg o => .eg (eliminateNegation (negIfNegS o))
  | .af o => .af (eliminateNegation (negIfNegS o))
  | .ef o => .ef (eliminateNegation (negIfNegS o))
  | .ax o => .ax (eliminateNegation (negIfNegS o))
  | .ex o => .ex (eliminateNegation (negIfNegS o))
  | .au l r =>
      .au (eliminateNegation (negIfNegS l)) (eliminateNegation (negIfNegS r))
  | .eu l r =>
      .eu (eliminateNegation (negIfNegS l)) (eliminateNegation (negIfNegS r))
  | .aw l r =>
      .aw (eliminateNegation (negIfNegS l)) (eliminateNegation (negIfNegS r))
  | .ew l r =>
      .ew (eliminateNegation (negIfNegS l)) (eliminateNegation (negIfNegS r))
termination_by c => wtS c
decreasing_by
  all_goals first
    | (rename_i l r
       have h1 := wtS_negIfNegS l
       have h2 := wtS_negIfNegS r
       have h3 := wtS_pos l
       have h4 := wtS_pos r
       simp only [wtS]; omega)
    | (rename_i o
       have h1 := wtS_negIfNegS o
       have h2 := wtS_pos o
       simp only [wtS]; omega)

/-- Is a `Negation` node reachable in an atomic-stratum formula? -/
def hasNegationA : AtomicFml → Bool
  | .ap _ _ _ => false
  | .negation _ => true
  | .union l r => hasNegationA l || hasNegationA r
  | .intersection l r => hasNegationA l || hasNegationA r

/-- Is a `Negation` node reachable from the root of a state formula? -/
def hasNegation : StateFml → Bool
  | .atom a => hasNegationA a
  | .boolean _ => false
  | .conjunction l r => hasNegation l || hasNegation r
  | .disjunction l r => hasNegation l || hasNegation r
  | .ag o => hasNegation o
  | .eg o => hasNegation o
  | .af o => hasNegation o
  | .ef o => hasNegation o
  | .ax o => hasNegation o
  | .ex o => hasNegation o
  | .au l r => hasNegation l || hasNegation r
  | .eu l r => hasNegation l || hasNegation r
  | .aw l r => hasNegation l || hasNegation r
  | .ew l r => hasNegation l || hasNegation r

/-- C5, evaluated at the failing inputs: `eliminate_negation` applied to
the parser-accepted formula `!(a >= 5)` (a `Negation` root over an
atomic proposition) returns the `Negation` node itself, so a `Negation`
remains reachable from the root; and on the triple negation
`!!!((a >= 5) | (b <= 3))` — the input of the repository's own
`test_eliminate_triple_negation`, which expects an `Intersection` — the
rewrite returns `Negation(Union(..))` unchanged. -/
theorem eliminate_negation_keeps_negation :
    hasNegation (eliminateNegation (.atom (.negation (.ap "a" .ge 5)))) = true
    ∧ eliminateNegationA
        (.negation (.negation (.negation
          (.union (.ap "a" .ge 5) (.ap "b" .le 3)))))
      = .negation (.union (.ap "a" .ge 5) (.ap "b" .le 3)) := by
  constructor
  · simp [eliminateNegation, eliminateNegationA, hasNegation, hasNegationA]
  · simp [eliminateNegationA]

/-! ## 4.D Weighted Hamming geometry (`src/src/weighted_distance.py`)

`ctl_formulae.py` imports `weighted_distance`, `find_extreme_state` and
`get_border_states` from `satisfaction_degree.py`, which defines none of
them with these signatures; the only definitions matching the call
shapes (and the ones named by the specification) are `get_border_states`,
`weighted_distance` and `find_extreme_depth` in `weighted_distance.py`,
embedded here. -/

/-- Stable insertion of an index into an index list already sorted by
weight: the new index goes after all indices of smaller-or-equal
weight. -/
def insertIdx (w : List ℚ) (i : ℕ) : List ℕ → List ℕ
  | [] => [i]
  | j :: r =>
    if w.getD i 0 < w.getD j 0 then i :: j :: r else j :: insertIdx w i r

/-- `sorted(range(len(state)), key=lambda i: weights[i])`: the index
order of `get_hamming_neighbors`, stable like Python `sorted`. -/
def sortIndices (w : List ℚ) (n : ℕ) : List ℕ :=
  (List.range n).foldl (fun acc i => insertIdx w i acc) []

/-- `get_hamming_neighbors(state, max_activities, weights, visited)`:
for each dimension in order of increasing weight and each `delta` in
`[-1, 1]`, yield `(weights[i], neighbor)` when the changed coordinate
stays in `[0, max_activities[i]]` and the neighbour was not visited. -/
def getHammingNeighbors (state : List ℤ) (maxes : List ℤ)
    (weights : List ℚ) (visited : List (List ℤ)) : List (ℚ × List ℤ) :=
  (sortIndices weights state.length).flatMap (fun i =>
    ([-1, 1] : List ℤ).filterMap (fun d =>
      let nb := state.set i (state.getD i 0 + d)
      if 0 ≤ nb.getD i 0 ∧ nb.getD i 0 ≤ maxes.getD i 0 ∧ nb ∉ visited then
        some (weights.getD i 0, nb)
      else none))

/-- `get_hamming_neighbors(state, max_activities)` with the default
uniform weights and empty visited set. -/
def getHammingNeighborsDefault (state : List ℤ) (maxes : List ℤ) :
    List (ℚ × List ℤ) :=
  getHammingNeighbors state maxes (state.map (fun _ => (1 : ℚ))) []

/-- `get_border_states(dov, max_activities)`: the pair
`(dov_border, co_dov_border)` — the states of `dov` having a Hamming
neighbour outside `dov`, and those outside neighbours.  (Python
accumulates into sets; the lists here add each state at most once.) -/
def getBorderStates (dov : List (List ℤ)) (maxes : List ℤ) :
    List (List ℤ) × List (List ℤ) :=
  dov.foldl (fun acc st =>
    (getHammingNeighborsDefault st maxes).foldl (fun acc2 p =>
      if p.2 ∈ dov then acc2
      else
        ((if st ∈ acc2.1 then acc2.1 else acc2.1 ++ [st]),
         (if p.2 ∈ acc2.2 then acc2.2 else acc2.2 ++ [p.2]))) acc)
    ([], [])

/-- The Dijkstra loop of `weighted_distance`, with explicit fuel (the
loop pops each state at most once, so any fuel beyond the size of the
state space is equivalent; fuel exhaustion returns `inf` like queue
exhaustion). -/
def wdLoop (maxes : List ℤ) (weights : List ℚ) (border : List (List ℤ)) :
    ℕ → List (List ℤ × ℚ) → List (List ℤ) → PyFloat
  | 0, _, _ => PyFloat.inf
  | fuel + 1, q, visited =>
    match extractMin q with
    | none => PyFloat.inf
    | some ((cur, dist), q') =>
      if cur ∈ border then PyFloat.val dist
      else
        let visited' := visited ++ [cur]
        let q'' := (getHammingNeighbors cur maxes weights visited').foldl
          (fun qq p => decreasePriority qq p.2 (dist + p.1)) q'
        wdLoop maxes weights border fuel q'' visited'

/-- `weighted_distance(state, border, max_activities)`: shortest
weighted Hamming distance from `state` to `border`, `inf` when no border
state is reachable.  The weights are `1 / max_activity`. -/
def weightedDistance (fuel : ℕ) (state : List ℤ) (border : List (List ℤ))
    (maxes : List ℤ) : PyFloat :=
  wdLoop maxes (maxes.map (fun m => 1 / (m : ℚ))) border fuel
    (decreasePriority [] state 0) []

/-- The relaxation loop of `find_extreme_depth`: the distance map is the
Python dict over `dov ∪ co_border` (all other keys are never read). -/
def fedLoop (maxes : List ℤ) (weights : List ℚ) (dov : List (List ℤ)) :
    ℕ → List (List ℤ × ℚ) → (List ℤ → PyFloat) → (List ℤ → PyFloat)
  | 0, _, dists => dists
  | fuel + 1, q, dists =>
    match extractMin q with
    | none => dists
    | some ((cur, dist), q') =>
      let step := (getHammingNeighbors cur maxes weights []).foldl
        (fun (acc : List (List ℤ × ℚ) × (List ℤ → PyFloat)) p =>
          if p.2 ∈ dov then
            let nd := dist + p.1
            if PyFloat.lt (PyFloat.val nd) (acc.2 p.2) then
              (decreasePriority acc.1 p.2 nd,
               fun t => if t = p.2 then PyFloat.val nd else acc.2 t)
            else acc
          else acc) (q', dists)
      fedLoop maxes weights dov fuel step.1 step.2

/-- Python `max(iterable)` on floats: `None` models the `ValueError` on
an empty sequence; the running maximum is replaced when the next value
compares strictly greater. -/
def pyMaxList : List PyFloat → Option PyFloat
  | [] => none
  | x :: r => some (r.foldl (fun m y => if PyFloat.lt m y then y else m) x)

/-- `find_extreme_depth(dov, co_border, max_act_values)`: multi-source
Dijkstra seeded at `co_border` with distance `0`, relaxing only through
states in `dov`, returning `max(distances[state] for state in dov)` —
which raises `ValueError` (`none`) when `dov` is empty. -/
def findExtremeDepth (fuel : ℕ) (dov coBorder : List (List ℤ))
    (maxes : List ℤ) : Option PyFloat :=
  let weights := maxes.map (fun m => 1 / (m : ℚ))
  let dists0 : List ℤ → PyFloat := fun _ => PyFloat.inf
  let dists1 := coBorder.foldl
    (fun D st => fun t => if t = st then PyFloat.val 0 else D t) dists0
  let q0 := coBorder.foldl (fun q st => decreasePriority q st 0) []
  let final := fedLoop maxes weights dov fuel q0 dists1
  pyMaxList (dov.map final)

/-- `compute_dov_complement(dov, max_activities)`: the full state space
minus `dov`. -/
def computeDovComplement (dov : List (List ℤ)) (vars : Vars) :
    List (List ℤ) :=
  (fullSpace vars).filter (fun s => decide (s ∉ dov))

/-- `AtomicFormula.evaluate` (`src/src/ctl_formulae.py` 80–98): compute
the DoV, its complement and the border pair; the two extreme depths
`max_depth = find_extreme_depth(dov, B_out)` and
`max_dist = find_extreme_depth(coDoV ∪ B_in, B_in)`; then label every
state of the STG with `wd / max_depth if max_depth > 0 else 0` inside
the DoV and `-wd / max_dist if max_depth > 0 else 0` outside (the guard
of the outside branch really tests `max_depth`, as in the source).

The source binds the pair returned by `get_border_states` to the single
variable `border` and passes it where one set is expected; this
embedding resolves each use to the component matching its role — the
co-border `B_out` for the inside distances and depth, the border `B_in`
for the outside ones — which is the reading most favourable to the
specification.  (Executed literally, the function cannot run at all:
the names are imported from `satisfaction_degree.py`, which does not
define them with these signatures.)  `none` models an uncaught Python
exception. -/
def atomicEvaluate (a : AtomicFml) (vars : Vars) (fuel : ℕ) :
    Option (List (List ℤ × PyFloat)) :=
  match computeDov a vars with
  | none => none
  | some dov =>
    let maxes := vars.map Prod.snd
    let comp := computeDovComplement dov vars
    let border := getBorderStates dov maxes
    match findExtremeDepth fuel dov border.2 maxes with
    | none => none
    | some maxDepth =>
      match findExtremeDepth fuel (comp ++ border.1) border.1 maxes with
      | none => none
      | some maxDist =>
        some ((fullSpace vars).map (fun s =>
          (s,
           if s ∈ dov then
             (if maxDepth.gtZero then
                PyFloat.div (weightedDistance fuel s border.2 maxes) maxDepth
              else PyFloat.val 0)
           else
             (if maxDepth.gtZero then
                PyFloat.div (weightedDistance fuel s border.1 maxes).neg maxDist
              else PyFloat.val 0))))

/-- C1, evaluated at the failing input: for the admissible atomic
proposition `x >= 0` over the single variable `x` with maximum activity
`1`, the domain of validity is the whole state space, so both border
sets are empty and the claimed normalisation constant is `+inf` — the
claim demands the label `+1` for every state.  The code instead raises
(`find_extreme_depth` takes `max()` of an empty sequence for the
co-domain region), so no state is ever labelled. -/
theorem atomic_evaluate_crashes_on_full_dov :
    atomicEvaluate (.ap "x" .ge 0) [("x", 1)] 20 = none := by decide

/-- A label that is a real number of the closed interval `[-1, 1]`. -/
def labelInRange (v : PyFloat) : Prop :=
  ∃ q : ℚ, v = PyFloat.val q ∧ -1 ≤ q ∧ q ≤ 1

/-- C3, evaluated at the failing input: on the admissible formula
`x >= 0` over `{x: 1}` the atomic evaluation never completes (it raises
before labelling), so there is no completed labelling at all — in
particular none with every cell set to a real number in `[-1, 1]`; the
cells stay unset (`None`). -/
theorem atomic_evaluate_range_unachieved :
    ¬ ∃ l, atomicEvaluate (.ap "x" .ge 0) [("x", 1)] 20 = some l
      ∧ ∀ p ∈ l, labelInRange p.2 := by
  rintro ⟨l, h, -⟩
  rw [show atomicEvaluate (.ap "x" .ge 0) [("x", 1)] 20 = none from by decide] at h
  exact Option.noConfusion h

/-! ## 4.B State-transition graph (`src/src/multivalued_grn.py`) -/

/-- One regulator: a variable name with its activity thresholds. -/
structure Regulator where
  var : String
  thresholds : List ℤ
  deriving DecidableEq, Repr

/-- One regulatory context: one interval index (or `"*"`, modelled as
`none`) per regulator, and the target value driven when it matches. -/
structure RegContext where
  intervals : List (Option ℤ)
  targetValue : ℤ
  deriving DecidableEq, Repr

/-- One regulation: the target variable, its regulators and the ordered
contexts. -/
structure Regulation where
  target : String
  regulators : List Regulator
  contexts : List RegContext
  deriving DecidableEq, Repr

/-- A validated multi-valued GRN: the ordered variable map and the
regulation list. -/
structure GRN where
  vars : Vars
  regulations : List Regulation
  deriving DecidableEq, Repr

/-- `self.variable_names`. -/
def variableNames (g : GRN) : List String := g.vars.map Prod.fst

/-- `self.regulations.get(var_name)` where `self.regulations` is the
dict `{reg["target"]: reg for reg in grn.regulations}` — on duplicate
targets the last regulation wins, hence the search over the reversed
list. -/
def lookupRegulation (g : GRN) (name : String) : Option Regulation :=
  g.regulations.reverse.find? (fun r => decide (r.target = name))

/-- `bisect.bisect_right(thresholds, value)` on an ascending list: the
number of thresholds that are `≤ value`. -/
def bisectRight (thresholds : List ℤ) (value : ℤ) : ℕ :=
  (thresholds.filter (fun t => decide (t ≤ value))).length

/-- `is_context_satisfied(context_intervals, regulators,
regulator_values)`: every non-wildcard interval index must equal
`bisect_right(thresholds, value) + 1` for its regulator. -/
def isContextSatisfied (intervals : List (Option ℤ))
    (regulators : List Regulator) (values : List ℤ) : Bool :=
  (intervals.zip (regulators.zip values)).all (fun p =>
    match p.1 with
    | none => true
    | some ci => decide (Int.ofNat (bisectRight p.2.1.thresholds p.2.2) + 1 = ci))

/-- `StateTransitionGraph._compute_state_successors`: for each regulated
variable, project the regulator values, find the first matching context
and, when the driven target value differs from the current one, step the
variable by `int(math.copysign(1, delta))`. -/
def computeStateSuccessors (g : GRN) (s : List ℤ) : List (List ℤ) :=
  (variableNames g).enum.filterMap (fun p =>
    match lookupRegulation g p.2 with
    | none => none
    | some reg =>
      let regulatorsIndices :=
        reg.regulators.map (fun r => (variableNames g).indexOf r.var)
      let regulatorsValues := regulatorsIndices.map (fun i => s.getD i 0)
      match reg.contexts.find?
          (fun c => isContextSatisfied c.intervals reg.regulators
            regulatorsValues) with
      | none => none
      | some c =>
        let delta := c.targetValue - s.getD p.1 0
        if delta = 0 then none
        else some (s.set p.1 (s.getD p.1 0 + (if 0 < delta then 1 else -1))))

/-- `StateTransitionGraph._construct_graph`: every state of the full
state space gets its computed successors as outgoing edges, or a single
self-loop when there are none. -/
def constructGraph (g : GRN) : List (List ℤ × List (List ℤ)) :=
  (fullSpace g.vars).map (fun s =>
    let succ := computeStateSuccessors g s
    (s, if succ.isEmpty then [s] else succ))

/-- The target-value range check of `MvGRNParser._validate_context`:
every regulation targets a declared variable and every context drives a
value in `[0, target_max]`. -/
def validTargetValues (g : GRN) : Bool :=
  g.regulations.all (fun r =>
    match lookupVar g.vars r.target with
    | none => false
    | some m =>
      r.contexts.all (fun c =>
        decide (0 ≤ c.targetValue ∧ c.targetValue ≤ m)))

/-- C9: after construction every state of the full state space has at
least one outgoing edge — a state whose regulation rules produce no
successor receives a self-loop. -/
theorem stg_totality (g : GRN) (p : List ℤ × List (List ℤ))
    (hp : p ∈ constructGraph g) : p.2 ≠ [] := by
  obtain ⟨s, hs, rfl⟩ := List.mem_map.mp hp
  dsimp only
  by_cases h : (computeStateSuccessors g s).isEmpty
  · simp [h]
  · simp only [h]
    intro hc
    rw [if_neg (by simp [h])] at hc
    rw [hc] at h
    simp [List.isEmpty] at h

/-- Witness for C9 on a one-variable network with no regulations: the
state `(0,)` has no regulator-driven successor and receives the
self-loop edge `(0,) → (0,)`. -/
theorem stg_totality_witness :
    (([(0 : ℤ)], [[(0 : ℤ)]]) ∈ constructGraph ⟨[("x", 1)], []⟩)
    ∧ ([[(0 : ℤ)]] : List (List ℤ)) ≠ [] :=
  ⟨by decide, stg_totality ⟨[("x", 1)], []⟩ ([(0 : ℤ)], [[(0 : ℤ)]]) (by decide)⟩

theorem lookupVar_get (vars : Vars) (i : ℕ) (hi : i < vars.length)
    (hnodup : (vars.map Prod.fst).Nodup) :
    lookupVar vars (vars.get ⟨i, hi⟩).1 = some (vars.get ⟨i, hi⟩).2 := by
  induction vars generalizing i with
  | nil => simp at hi
  | cons p rest ih =>
    rcases i with _ | i
    · simp [lookupVar, List.find?]
    · simp only [List.map_cons, List.nodup_cons] at hnodup
      have hi2 : i < rest.length := by simpa using hi
      have hget : (p :: rest).get ⟨i + 1, hi⟩ = rest.get ⟨i, hi2⟩ := rfl
      rw [hget]
      have hmem : (rest.get ⟨i, hi2⟩).1 ∈ rest.map Prod.fst :=
        List.mem_map.mpr ⟨rest.get ⟨i, hi2⟩, List.get_mem rest i hi2, rfl⟩
      have hne : ¬ p.1 = (rest.get ⟨i, hi2⟩).1 := fun hcc => hnodup.1 (hcc ▸ hmem)
      have hrec := ih i hi2 hnodup.2
      simp only [lookupVar, List.find?, decide_eq_false hne] at hrec ⊢
      exact hrec

theorem getD_set_self (l : List ℤ) (i : ℕ) (v : ℤ) (h : i < l.length) :
    (l.set i v).getD i 0 = v := by
  rw [List.getD_eq_getElem _ _ (by simpa using h)]
  simp [List.getElem_set]

theorem getD_set_ne (l : List ℤ) (i j : ℕ) (v : ℤ) (h : j ≠ i) :
    (l.set i v).getD j 0 = l.getD j 0 := by
  by_cases hj : j < l.length
  · rw [List.getD_eq_getElem _ _ (by simpa using hj),
      List.getD_eq_getElem _ _ hj]
    simp [List.getElem_set, Ne.symm h]
  · rw [List.getD_eq_default _ _ (by simpa using hj),
      List.getD_eq_default _ _ (by omega)]

/-- C10: every successor produced by the successor-enumeration rule
differs from the state in exactly one coordinate, by exactly `+1` or
`-1`, and the changed coordinate stays within `[0, m_i]` (given a state
of the declared space and the target-value range check the network
validator enforces). -/
theorem successors_single_hamming_step (g : GRN) (s succ : List ℤ)
    (hlen : s.length = g.vars.length)
    (hnodup : (g.vars.map Prod.fst).Nodup)
    (hbounds : ∀ i, i < s.length →
      0 ≤ s.getD i 0 ∧ s.getD i 0 ≤ (g.vars.map Prod.snd).getD i 0)
    (hvalid : validTargetValues g = true)
    (hmem : succ ∈ computeStateSuccessors g s) :
    ∃ i, i < s.length
      ∧ succ.length = s.length
      ∧ (succ.getD i 0 = s.getD i 0 + 1 ∨ succ.getD i 0 = s.getD i 0 - 1)
      ∧ 0 ≤ succ.getD i 0
      ∧ succ.getD i 0 ≤ (g.vars.map Prod.snd).getD i 0
      ∧ ∀ j, j ≠ i → succ.getD j 0 = s.getD j 0 := by
  obtain ⟨p, hpmem, hpf⟩ := List.mem_filterMap.mp hmem
  obtain ⟨n, hn, hget⟩ := List.mem_iff_getElem.mp hpmem
  rw [List.getElem_enum] at hget
  have hplen : p.1 < (variableNames g).length := by
    rw [← hget]
    simpa [List.enum_length] using hn
  have hvlen : p.1 < g.vars.length := by
    simpa [variableNames] using hplen
  have hidx : p.1 < s.length := by rw [hlen]; exact hvlen
  have hname : p.2 = (g.vars.get ⟨p.1, hvlen⟩).1 := by
    have h1 : p.2 = (variableNames g)[p.1] := by
      have := congrArg Prod.snd hget
      simp at this
      rw [← this]
      have := congrArg Prod.fst hget
      simp at this
      simp [this]
    rw [h1]
    simp [variableNames, List.getElem_map, List.get_eq_getElem]
  cases hreg : lookupRegulation g p.2 with
  | none =>
    simp only [hreg] at hpf
    exact Option.noConfusion hpf
  | some reg =>
    cases hctx : reg.contexts.find? (fun c =>
        isContextSatisfied c.intervals reg.regulators
          ((reg.regulators.map
              (fun r => (variableNames g).indexOf r.var)).map
            (fun i => s.getD i 0))) with
    | none =>
      simp only [hreg, hctx] at hpf
      exact Option.noConfusion hpf
    | some c =>
      simp only [hreg, hctx] at hpf
      by_cases hδ : c.targetValue - s.getD p.1 0 = 0
      · simp only [hδ, if_true] at hpf
        exact Option.noConfusion hpf
      · simp only [hδ, if_false, Option.some.injEq] at hpf
        have hrt : reg.target = p.2 := by
          have h1 := List.find?_some hreg
          exact of_decide_eq_true h1
        have hrmem : reg ∈ g.regulations :=
          List.mem_reverse.mp (List.mem_of_find?_eq_some hreg)
        have hcmem : c ∈ reg.contexts := List.mem_of_find?_eq_some hctx
        have hm : lookupVar g.vars p.2 = some (g.vars.get ⟨p.1, hvlen⟩).2 := by
          rw [hname]
          exact lookupVar_get g.vars p.1 hvlen hnodup
        have hmsnd : (g.vars.map Prod.snd).getD p.1 0
            = (g.vars.get ⟨p.1, hvlen⟩).2 := by
          rw [List.getD_eq_getElem _ _ (by simpa using hvlen)]
          simp [List.getElem_map, List.get_eq_getElem]
        have htv : 0 ≤ c.targetValue
            ∧ c.targetValue ≤ (g.vars.get ⟨p.1, hvlen⟩).2 := by
          simp only [validTargetValues, List.all_eq_true] at hvalid
          have h2 := hvalid reg hrmem
          rw [hrt, hm] at h2
          simp only [List.all_eq_true] at h2
          exact of_decide_eq_true (h2 c hcmem)
        obtain ⟨hb1, hb2⟩ := hbounds p.1 hidx
        rw [hmsnd] at hb2
        refine ⟨p.1, hidx, ?_, ?_, ?_, ?_, ?_⟩
        · rw [← hpf, List.length_set]
        · rw [← hpf, getD_set_self s p.1 _ hidx]
          by_cases hpos : 0 < c.targetValue - s.getD p.1 0
          · rw [if_pos hpos]; left; rfl
          · rw [if_neg hpos]; right; omega
        · rw [← hpf, getD_set_self s p.1 _ hidx]
          by_cases hpos : 0 < c.targetValue - s.getD p.1 0
          · rw [if_pos hpos]; omega
          · rw [if_neg hpos]; omega
        · rw [← hpf, getD_set_self s p.1 _ hidx, hmsnd]
          by_cases hpos : 0 < c.targetValue - s.getD p.1 0
          · rw [if_pos hpos]; omega
          · rw [if_neg hpos]; omega
        · intro j hj
          rw [← hpf, getD_set_ne s p.1 j _ hj]

/-- Witness for C10: a one-variable network whose single regulation
drives `x` toward `1`; from the state `(0,)` the rule produces the
successor `(1,)`, a single `+1` Hamming step staying inside `[0, 1]`. -/
theorem successors_single_hamming_step_witness :
    ∃ i, i < ([(0 : ℤ)] : List ℤ).length
      ∧ ([(1 : ℤ)] : List ℤ).length = ([(0 : ℤ)] : List ℤ).length
      ∧ (([(1 : ℤ)] : List ℤ).getD i 0 = ([(0 : ℤ)] : List ℤ).getD i 0 + 1
          ∨ ([(1 : ℤ)] : List ℤ).getD i 0 = ([(0 : ℤ)] : List ℤ).getD i 0 - 1)
      ∧ 0 ≤ ([(1 : ℤ)] : List ℤ).getD i 0
      ∧ ([(1 : ℤ)] : List ℤ).getD i 0
          ≤ ((GRN.mk [("x", 1)]
              [⟨"x", [⟨"x", [1]⟩], [⟨[none], 1⟩]⟩]).vars.map Prod.snd).getD i 0
      ∧ ∀ j, j ≠ i →
          ([(1 : ℤ)] : List ℤ).getD j 0 = ([(0 : ℤ)] : List ℤ).getD j 0 :=
  successors_single_hamming_step
    (GRN.mk [("x", 1)] [⟨"x", [⟨"x", [1]⟩], [⟨[none], 1⟩]⟩])
    [(0 : ℤ)] [(1 : ℤ)] (by decide) (by decide) (by decide) (by decide)
    (by decide)

/-! ## 4.F The fixed-point evaluation loops (`src/src/ctl_formulae.py`)

The quantitative labelling `formulae_evaluations` maps a state and a
sub-formula key (the Python `repr` string of the sub-formula) to a
label; it is modelled by a total function `Table`.  The state type is a
parameter; `succ` / `pred` are the STG adjacency functions.  The loops
carry explicit fuel: every theorem below holds for every fuel value. -/

/-- The labelling table `formulae_evaluations`. -/
def Table (α : Type) := α → String → ℚ

/-- `formulae_evaluations[state][key] = v`. -/
def writeT (T : Table α) (s : α) (k : String) (v : ℚ) : Table α :=
  fun t k' => if t = s ∧ k' = k then v else T t k'

/-- Python `min` over a list of labels (`min([])` raises; the `0`
default is unreached on a total STG, where successor lists are
non-empty). -/
def minList : List ℚ → ℚ
  | [] => 0
  | x :: r => r.foldl min x

/-- Python `max` over a list of labels. -/
def maxList : List ℚ → ℚ
  | [] => 0
  | x :: r => r.foldl max x

/-- One iteration of the `AG.evaluate` while-loop: extract the state
with the minimal queued priority; take the minimum of the **operand**
labels of its successors (line 315 of the source reads
`repr(self.operand)`, not `repr(self)`); on strict improvement write it
to the `AG` key and call `decrease_priority(p, L[state][operand])` for
every predecessor — the key pushed is the operand label of the extracted
state (line 321), not the written minimum. -/
def agIter (succ pred : α → List α) (keyOp keySelf : String)
    (T : Table α) (q : List (α × ℚ)) : Option (Table α × List (α × ℚ)) :=
  match extractMin q with
  | none => none
  | some ((s, _), q') =>
    let m := minList ((succ s).map (fun t => T t keyOp))
    if m < T s keySelf then
      let T' := writeT T s keySelf m
      some (T', (pred s).foldl
        (fun qq p' => decreasePriority qq p' (T' s keyOp)) q')
    else some (T, q')

/-- The `AG.evaluate` while-loop. -/
def agLoop (succ pred : α → List α) (keyOp keySelf : String) :
    ℕ → Table α → List (α × ℚ) → Table α
  | 0, T, _ => T
  | fuel + 1, T, q =>
    match agIter succ pred keyOp keySelf T q with
    | none => T
    | some r => agLoop succ pred keyOp keySelf fuel r.1 r.2

/-- `AG.evaluate`: initialise the `AG` column with the operand column,
seed the min-queue through the predecessors, then run the loop. -/
def agEvaluate (fuel : ℕ) (states : List α) (succ pred : α → List α)
    (keyOp keySelf : String) (T0 : Table α) : Table α :=
  let init := states.foldl
    (fun (acc : Table α × List (α × ℚ)) st =>
      let T' := writeT acc.1 st keySelf (acc.1 st keyOp)
      (T', (pred st).foldl
        (fun qq p' => decreasePriority qq p' (T' st keyOp)) acc.2))
    (T0, [])
  agLoop succ pred keyOp keySelf fuel init.1 init.2

/-- One iteration of the `EG.evaluate` while-loop: as `agIter` but the
propagated value is the **maximum** of the successors' operand labels,
still lowered only when strictly smaller than the current value. -/
def egIter (succ pred : α → List α) (keyOp keySelf : String)
    (T : Table α) (q : List (α × ℚ)) : Option (Table α × List (α × ℚ)) :=
  match extractMin q with
  | none => none
  | some ((s, _), q') =>
    let m := maxList ((succ s).map (fun t => T t keyOp))
    if m < T s keySelf then
      let T' := writeT T s keySelf m
      some (T', (pred s).foldl
        (fun qq p' => decreasePriority qq p' (T' s keyOp)) q')
    else some (T, q')

/-- The `EG.evaluate` while-loop. -/
def egLoop (succ pred : α → List α) (keyOp keySelf : String) :
    ℕ → Table α → List (α × ℚ) → Table α
  | 0, T, _ => T
  | fuel + 1, T, q =>
    match egIter succ pred keyOp keySelf T q with
    | none => T
    | some r => egLoop succ pred keyOp keySelf fuel r.1 r.2

/-- `EG.evaluate`. -/
def egEvaluate (fuel : ℕ) (states : List α) (succ pred : α → List α)
    (keyOp keySelf : String) (T0 : Table α) : Table α :=
  let init := states.foldl
    (fun (acc : Table α × List (α × ℚ)) st =>
      let T' := writeT acc.1 st keySelf (acc.1 st keyOp)
      (T', (pred st).foldl
        (fun qq p' => decreasePriority qq p' (T' st keyOp)) acc.2))
    (T0, [])
  egLoop succ pred keyOp keySelf fuel init.1 init.2

/-- One iteration of the `AU.evaluate` while-loop: extract the state
with the maximal queued priority, extend the prefix with
`min(L[s][left], min over successors of L[t][self])` and on strict
improvement write it and push `extend` to every predecessor. -/
def auIter (succ pred : α → List α) (keyLeft keySelf : String)
    (T : Table α) (q : List (α × ℚ)) : Option (Table α × List (α × ℚ)) :=
  match extractMax q with
  | none => none
  | some ((s, _), q') =>
    let minUntilNexts := minList ((succ s).map (fun t => T t keySelf))
    let extend := min (T s keyLeft) minUntilNexts
    if T s keySelf < extend then
      let T' := writeT T s keySelf extend
      some (T', (pred s).foldl
        (fun qq p' => increasePriority qq p' extend) q')
    else some (T, q')

/-- The `AU.evaluate` while-loop. -/
def auLoop (succ pred : α → List α) (keyLeft keySelf : String) :
    ℕ → Table α → List (α × ℚ) → Table α
  | 0, T, _ => T
  | fuel + 1, T, q =>
    match auIter succ pred keyLeft keySelf T q with
    | none => T
    | some r => auLoop succ pred keyLeft keySelf fuel r.1 r.2

/-- `AU.evaluate`: initialise the `AU` column with the right-operand
column, seed the max-queue through the predecessors, then run the
loop. -/
def auEvaluate (fuel : ℕ) (states : List α) (succ pred : α → List α)
    (keyLeft keyRight keySelf : String) (T0 : Table α) : Table α :=
  let init := states.foldl
    (fun (acc : Table α × List (α × ℚ)) st =>
      let T' := writeT acc.1 st keySelf (acc.1 st keyRight)
      (T', (pred st).foldl
        (fun qq p' => increasePriority qq p' (T' st keyRight)) acc.2))
    (T0, [])
  auLoop succ pred keyLeft keySelf fuel init.1 init.2

/-- One iteration of the `EU.evaluate` while-loop: existential variant
of `auIter`, taking the maximum over the successors' `self` labels. -/
def euIter (succ pred : α → List α) (keyLeft keySelf : String)
    (T : Table α) (q : List (α × ℚ)) : Option (Table α × List (α × ℚ)) :=
  match extractMax q with
  | none => none
  | some ((s, _), q') =>
    let maxUntilNexts := maxList ((succ s).map (fun t => T t keySelf))
    let extend := min (T s keyLeft) maxUntilNexts
    if T s keySelf < extend then
      let T' := writeT T s keySelf extend
      some (T', (pred s).foldl
        (fun qq p' => increasePriority qq p' extend) q')
    else some (T, q')

/-- The `EU.evaluate` while-loop. -/
def euLoop (succ pred : α → List α) (keyLeft keySelf : String) :
    ℕ → Table α → List (α × ℚ) → Table α
  | 0, T, _ => T
  | fuel + 1, T, q =>
    match euIter succ pred keyLeft keySelf T q with
    | none => T
    | some r => euLoop succ pred keyLeft keySelf fuel r.1 r.2

/-- `EU.evaluate`. -/
def euEvaluate (fuel : ℕ) (states : List α) (succ pred : α → List α)
    (keyLeft keyRight keySelf : String) (T0 : Table α) : Table α :=
  let init := states.foldl
    (fun (acc : Table α × List (α × ℚ)) st =>
      let T' := writeT acc.1 st keySelf (acc.1 st keyRight)
      (T', (pred st).foldl
        (fun qq p' => increasePriority qq p' (T' st keyRight)) acc.2))
    (T0, [])
  euLoop succ pred keyLeft keySelf fuel init.1 init.2

/-- `AW.evaluate`: run `AG(left)` to completion, then `AU(left, right)`
to completion on the same table, then write the per-state maximum of the
two columns into the `AW` column. -/
def awEvaluate (fuel : ℕ) (states : List α) (succ pred : α → List α)
    (keyPhi keyPsi keyAG keyAU keyAW : String) (T0 : Table α) : Table α :=
  let T1 := agEvaluate fuel states succ pred keyPhi keyAG T0
  let T2 := auEvaluate fuel states succ pred keyPhi keyPsi keyAU T1
  states.foldl
    (fun T st => writeT T st keyAW (max (T st keyAG) (T st keyAU))) T2

/-- `EW.evaluate`: as `AW.evaluate` with `EG` and `EU`. -/
def ewEvaluate (fuel : ℕ) (states : List α) (succ pred : α → List α)
    (keyPhi keyPsi keyEG keyEU keyEW : String) (T0 : Table α) : Table α :=
  let T1 := egEvaluate fuel states succ pred keyPhi keyEG T0
  let T2 := euEvaluate fuel states succ pred keyPhi keyPsi keyEU T1
  states.foldl
    (fun T st => writeT T st keyEW (max (T st keyEG) (T st keyEU))) T2

theorem writeT_apply_ne_key (T : Table α) (s : α) (key : String) (v : ℚ)
    (t : α) (k : String) (hk : k ≠ key) : writeT T s key v t k = T t k := by
  simp [writeT, hk]

theorem writeT_apply_ne_item (T : Table α) (s : α) (key : String) (v : ℚ)
    (t : α) (k : String) (ht : t ≠ s) : writeT T s key v t k = T t k := by
  simp [writeT, ht]

theorem agIter_writes_only (succ pred : α → List α) (kOp kSelf : String)
    (T : Table α) (q : List (α × ℚ)) (r : Table α × List (α × ℚ))
    (h : agIter succ pred kOp kSelf T q = some r)
    (t : α) (k : String) (hk : k ≠ kSelf) : r.1 t k = T t k := by
  unfold agIter at h
  cases hq : extractMin q with
  | none => rw [hq] at h; exact Option.noConfusion h
  | some e =>
    obtain ⟨⟨s, pk⟩, q'⟩ := e
    rw [hq] at h
    simp only at h
    by_cases hlt : minList ((succ s).map (fun u => T u kOp)) < T s kSelf
    · rw [if_pos hlt] at h
      simp only [Option.some.injEq] at h
      rw [← h]
      exact writeT_apply_ne_key T s kSelf _ t k hk
    · rw [if_neg hlt] at h
      simp only [Option.some.injEq] at h
      rw [← h]

theorem agLoop_writes_only (succ pred : α → List α) (kOp kSelf : String)
    (fuel : ℕ) (t : α) (k : String) (hk : k ≠ kSelf) :
    ∀ (T : Table α) (q : List (α × ℚ)),
      agLoop succ pred kOp kSelf fuel T q t k = T t k := by
  induction fuel with
  | zero => intro T q; rfl
  | succ n ih =>
    intro T q
    unfold agLoop
    cases hit : agIter succ pred kOp kSelf T q with
    | none => rfl
    | some r =>
      show agLoop _ _ _ _ n r.1 r.2 t k = T t k
      rw [ih r.1 r.2]
      exact agIter_writes_only succ pred kOp kSelf T q r hit t k hk

theorem egIter_writes_only (succ pred : α → List α) (kOp kSelf : String)
    (T : Table α) (q : List (α × ℚ)) (r : Table α × List (α × ℚ))
    (h : egIter succ pred kOp kSelf T q = some r)
    (t : α) (k : String) (hk : k ≠ kSelf) : r.1 t k = T t k := by
  unfold egIter at h
  cases hq : extractMin q with
  | none => rw [hq] at h; exact Option.noConfusion h
  | some e =>
    obtain ⟨⟨s, pk⟩, q'⟩ := e
    rw [hq] at h
    simp only at h
    by_cases hlt : maxList ((succ s).map (fun u => T u kOp)) < T s kSelf
    · rw [if_pos hlt] at h
      simp only [Option.some.injEq] at h
      rw [← h]
      exact writeT_apply_ne_key T s kSelf _ t k hk
    · rw [if_neg hlt] at h
      simp only [Option.some.injEq] at h
      rw [← h]

theorem egLoop_writes_only (succ pred : α → List α) (kOp kSelf : String)
    (fuel : ℕ) (t : α) (k : String) (hk : k ≠ kSelf) :
    ∀ (T : Table α) (q : List (α × ℚ)),
      egLoop succ pred kOp kSelf fuel T q t k = T t k := by
  induction fuel with
  | zero => intro T q; rfl
  | succ n ih =>
    intro T q
    unfold egLoop
    cases hit : egIter succ pred kOp kSelf T q with
    | none => rfl
    | some r =>
      show egLoop _ _ _ _ n r.1 r.2 t k = T t k
      rw [ih r.1 r.2]
      exact egIter_writes_only succ pred kOp kSelf T q r hit t k hk

theorem auIter_writes_only (succ pred : α → List α) (kLeft kSelf : String)
    (T : Table α) (q : List (α × ℚ)) (r : Table α × List (α × ℚ))
    (h : auIter succ pred kLeft kSelf T q = some r)
    (t : α) (k : String) (hk : k ≠ kSelf) : r.1 t k = T t k := by
  unfold auIter at h
  cases hq : extractMax q with
  | none => rw [hq] at h; exact Option.noConfusion h
  | some e =>
    obtain ⟨⟨s, pk⟩, q'⟩ := e
    rw [hq] at h
    simp only at h
    by_cases hlt : T s kSelf
        < min (T s kLeft) (minList ((succ s).map (fun u => T u kSelf)))
    · rw [if_pos hlt] at h
      simp only [Option.some.injEq] at h
      rw [← h]
      exact writeT_apply_ne_key T s kSelf _ t k hk
    · rw [if_neg hlt] at h
      simp only [Option.some.injEq] at h
      rw [← h]

theorem auLoop_writes_only (succ pred : α → List α) (kLeft kSelf : String)
    (fuel : ℕ) (t : α) (k : String) (hk : k ≠ kSelf) :
    ∀ (T : Table α) (q : List (α × ℚ)),
      auLoop succ pred kLeft kSelf fuel T q t k = T t k := by
  induction fuel with
  | zero => intro T q; rfl
  | succ n ih =>
    intro T q
    unfold auLoop
    cases hit : auIter succ pred kLeft kSelf T q with
    | none => rfl
    | some r =>
      show auLoop _ _ _ _ n r.1 r.2 t k = T t k
      rw [ih r.1 r.2]
      exact auIter_writes_only succ pred kLeft kSelf T q r hit t k hk

theorem euIter_writes_only (succ pred : α → List α) (kLeft kSelf : String)
    (T : Table α) (q : List (α × ℚ)) (r : Table α × List (α × ℚ))
    (h : euIter succ pred kLeft kSelf T q = some r)
    (t : α) (k : String) (hk : k ≠ kSelf) : r.1 t k = T t k := by
  unfold euIter at h
  cases hq : extractMax q with
  | none => rw [hq] at h; exact Option.noConfusion h
  | some e =>
    obtain ⟨⟨s, pk⟩, q'⟩ := e
    rw [hq] at h
    simp only at h
    by_cases hlt : T s kSelf
        < min (T s kLeft) (maxList ((succ s).map (fun u => T u kSelf)))
    · rw [if_pos hlt] at h
      simp only [Option.some.injEq] at h
      rw [← h]
      exact writeT_apply_ne_key T s kSelf _ t k hk
    · rw [if_neg hlt] at h
      simp only [Option.some.injEq] at h
      rw [← h]

theorem euLoop_writes_only (succ pred : α → List α) (kLeft kSelf : String)
    (fuel : ℕ) (t : α) (k : String) (hk : k ≠ kSelf) :
    ∀ (T : Table α) (q : List (α × ℚ)),
      euLoop succ pred kLeft kSelf fuel T q t k = T t k := by
  induction fuel with
  | zero => intro T q; rfl
  | succ n ih =>
    intro T q
    unfold euLoop
    cases hit : euIter succ pred kLeft kSelf T q with
    | none => rfl
    | some r =>
      show euLoop _ _ _ _ n r.1 r.2 t k = T t k
      rw [ih r.1 r.2]
      exact euIter_writes_only succ pred kLeft kSelf T q r hit t k hk

theorem initFold_fst (states : List α) (pred : α → List α)
    (kSrc kSelf : String)
    (pushf : List (α × ℚ) → α → ℚ → List (α × ℚ))
    (t : α) (k : String) (hk : k ≠ kSelf) :
    ∀ acc : Table α × List (α × ℚ),
      (states.foldl
        (fun (acc : Table α × List (α × ℚ)) st =>
          let T' := writeT acc.1 st kSelf (acc.1 st kSrc)
          (T', (pred st).foldl
            (fun qq p' => pushf qq p' (T' st kSrc)) acc.2)) acc).1 t k
      = acc.1 t k := by
  induction states with
  | nil => intro acc; rfl
  | cons st rest ih =>
    intro acc
    rw [List.foldl_cons, ih]
    exact writeT_apply_ne_key acc.1 st kSelf _ t k hk

theorem agEvaluate_writes_only (fuel : ℕ) (states : List α)
    (succ pred : α → List α) (kOp kSelf : String) (T0 : Table α)
    (t : α) (k : String) (hk : k ≠ kSelf) :
    agEvaluate fuel states succ pred kOp kSelf T0 t k = T0 t k := by
  unfold agEvaluate
  rw [agLoop_writes_only succ pred kOp kSelf fuel t k hk]
  exact initFold_fst states pred kOp kSelf
    (fun qq p' v => decreasePriority qq p' v) t k hk (T0, [])

theorem egEvaluate_writes_only (fuel : ℕ) (states : List α)
    (succ pred : α → List α) (kOp kSelf : String) (T0 : Table α)
    (t : α) (k : String) (hk : k ≠ kSelf) :
    egEvaluate fuel states succ pred kOp kSelf T0 t k = T0 t k := by
  unfold egEvaluate
  rw [egLoop_writes_only succ pred kOp kSelf fuel t k hk]
  exact initFold_fst states pred kOp kSelf
    (fun qq p' v => decreasePriority qq p' v) t k hk (T0, [])

theorem auEvaluate_writes_only (fuel : ℕ) (states : List α)
    (succ pred : α → List α) (kLeft kRight kSelf : String) (T0 : Table α)
    (t : α) (k : String) (hk : k ≠ kSelf) :
    auEvaluate fuel states succ pred kLeft kRight kSelf T0 t k = T0 t k := by
  unfold auEvaluate
  rw [auLoop_writes_only succ pred kLeft kSelf fuel t k hk]
  exact initFold_fst states pred kRight kSelf
    (fun qq p' v => increasePriority qq p' v) t k hk (T0, [])

theorem euEvaluate_writes_only (fuel : ℕ) (states : List α)
    (succ pred : α → List α) (kLeft kRight kSelf : String) (T0 : Table α)
    (t : α) (k : String) (hk : k ≠ kSelf) :
    euEvaluate fuel states succ pred kLeft kRight kSelf T0 t k = T0 t k := by
  unfold euEvaluate
  rw [euLoop_writes_only succ pred kLeft kSelf fuel t k hk]
  exact initFold_fst states pred kRight kSelf
    (fun qq p' v => increasePriority qq p' v) t k hk (T0, [])

theorem foldMax_row_not_mem (states : List α) (kA kB kW : String) (s : α)
    (hs : s ∉ states) (k' : String) :
    ∀ T : Table α,
      (states.foldl
        (fun T st => writeT T st kW (max (T st kA) (T st kB))) T) s k'
      = T s k' := by
  induction states with
  | nil => intro T; rfl
  | cons st rest ih =>
    intro T
    have hne : s ≠ st := fun hcc => hs (hcc ▸ List.mem_cons_self st rest)
    have hrest : s ∉ rest := fun hcc => hs (List.mem_cons_of_mem st hcc)
    rw [List.foldl_cons, ih hrest]
    exact writeT_apply_ne_item T st kW _ s k' hne

theorem foldMax_at_mem (states : List α) (kA kB kW : String)
    (h1 : kW ≠ kA) (h2 : kW ≠ kB) (s : α) (hs : s ∈ states) :
    ∀ T : Table α,
      (states.foldl
        (fun T st => writeT T st kW (max (T st kA) (T st kB))) T) s kW
      = max (T s kA) (T s kB) := by
  induction states with
  | nil => cases hs
  | cons st rest ih =>
    intro T
    rw [List.foldl_cons]
    by_cases hsr : s ∈ rest
    · rw [ih hsr]
      rw [writeT_apply_ne_key T st kW _ s kA (Ne.symm h1)]
      rw [writeT_apply_ne_key T st kW _ s kB (Ne.symm h2)]
    · have hst : s = st := by
        rcases List.mem_cons.mp hs with h | h
        · exact h
        · exact absurd h hsr
      subst hst
      rw [foldMax_row_not_mem rest kA kB kW s hsr kW]
      simp [writeT]

/-- C4: after `AW.evaluate` (resp. `EW.evaluate`), the label of every
state at the `A φ W ψ` key is the per-state maximum of the `AG φ` and
`A φ U ψ` labels (resp. `EG φ` and `E φ U ψ`) as produced by running the
two component evaluations to completion first — the `AU`/`EU` run does
not disturb the finished `AG`/`EG` column.  The hypotheses say only that
the three textual sub-formula keys involved on each side are pairwise
distinct, which holds for the `repr` strings of actual formulas. -/
theorem weak_until_max_of_components {α : Type} [DecidableEq α]
    (fuel : ℕ) (states : List α) (succ pred : α → List α)
    (keyPhi keyPsi keyAG keyAU keyAW keyEG keyEU keyEW : String)
    (T0 : Table α) (s : α) (hs : s ∈ states)
    (h1 : keyAW ≠ keyAG) (h2 : keyAW ≠ keyAU) (h3 : keyAU ≠ keyAG)
    (h4 : keyEW ≠ keyEG) (h5 : keyEW ≠ keyEU) (h6 : keyEU ≠ keyEG) :
    (awEvaluate fuel states succ pred keyPhi keyPsi keyAG keyAU keyAW T0 s keyAW
        = max
          (auEvaluate fuel states succ pred keyPhi keyPsi keyAU
            (agEvaluate fuel states succ pred keyPhi keyAG T0) s keyAG)
          (auEvaluate fuel states succ pred keyPhi keyPsi keyAU
            (agEvaluate fuel states succ pred keyPhi keyAG T0) s keyAU)
      ∧ auEvaluate fuel states succ pred keyPhi keyPsi keyAU
            (agEvaluate fuel states succ pred keyPhi keyAG T0) s keyAG
          = agEvaluate fuel states succ pred keyPhi keyAG T0 s keyAG)
    ∧ (ewEvaluate fuel states succ pred keyPhi keyPsi keyEG keyEU keyEW T0 s keyEW
        = max
          (euEvaluate fuel states succ pred keyPhi keyPsi keyEU
            (egEvaluate fuel states succ pred keyPhi keyEG T0) s keyEG)
          (euEvaluate fuel states succ pred keyPhi keyPsi keyEU
            (egEvaluate fuel states succ pred keyPhi keyEG T0) s keyEU)
      ∧ euEvaluate fuel states succ pred keyPhi keyPsi keyEU
            (egEvaluate fuel states succ pred keyPhi keyEG T0) s keyEG
          = egEvaluate fuel states succ pred keyPhi keyEG T0 s keyEG) := by
  refine ⟨⟨?_, ?_⟩, ?_, ?_⟩
  · unfold awEvaluate
    exact foldMax_at_mem states keyAG keyAU keyAW h1 h2 s hs _
  · exact auEvaluate_writes_only fuel states succ pred keyPhi keyPsi keyAU
      (agEvaluate fuel states succ pred keyPhi keyAG T0) s keyAG (Ne.symm h3)
  · unfold ewEvaluate
    exact foldMax_at_mem states keyEG keyEU keyEW h4 h5 s hs _
  · exact euEvaluate_writes_only fuel states succ pred keyPhi keyPsi keyEU
      (egEvaluate fuel states succ pred keyPhi keyEG T0) s keyEG (Ne.symm h6)

/-- Witness for C4 on a two-state STG with the `repr` keys of the
formulas `AG ((x >= 1))`, `A ((x >= 1)) U ((x <= 0))` and
`A ((x >= 1)) W ((x <= 0))` (and their existential counterparts). -/
theorem weak_until_max_of_components_witness :
    (awEvaluate 3 [0, 1] (fun _ => [0, 1]) (fun _ => [0, 1])
        "(x >= 1)" "(x <= 0)" "AG ((x >= 1))" "A ((x >= 1)) U ((x <= 0))"
        "A ((x >= 1)) W ((x <= 0))" (fun _ _ => 0) 0 "A ((x >= 1)) W ((x <= 0))"
        = max
          (auEvaluate 3 [0, 1] (fun _ => [0, 1]) (fun _ => [0, 1])
            "(x >= 1)" "(x <= 0)" "A ((x >= 1)) U ((x <= 0))"
            (agEvaluate 3 [0, 1] (fun _ => [0, 1]) (fun _ => [0, 1])
              "(x >= 1)" "AG ((x >= 1))" (fun _ _ => 0)) 0 "AG ((x >= 1))")
          (auEvaluate 3 [0, 1] (fun _ => [0, 1]) (fun _ => [0, 1])
            "(x >= 1)" "(x <= 0)" "A ((x >= 1)) U ((x <= 0))"
            (agEvaluate 3 [0, 1] (fun _ => [0, 1]) (fun _ => [0, 1])
              "(x >= 1)" "AG ((x >= 1))" (fun _ _ => 0)) 0
            "A ((x >= 1)) U ((x <= 0))")
      ∧ auEvaluate 3 [0, 1] (fun _ => [0, 1]) (fun _ => [0, 1])
            "(x >= 1)" "(x <= 0)" "A ((x >= 1)) U ((x <= 0))"
            (agEvaluate 3 [0, 1] (fun _ => [0, 1]) (fun _ => [0, 1])
              "(x >= 1)" "AG ((x >= 1))" (fun _ _ => 0)) 0 "AG ((x >= 1))"
          = agEvaluate 3 [0, 1] (fun _ => [0, 1]) (fun _ => [0, 1])
              "(x >= 1)" "AG ((x >= 1))" (fun _ _ => 0) 0 "AG ((x >= 1))")
    ∧ (ewEvaluate 3 [0, 1] (fun _ => [0, 1]) (fun _ => [0, 1])
        "(x >= 1)" "(x <= 0)" "EG ((x >= 1))" "E ((x >= 1)) U ((x <= 0))"
        "E ((x >= 1)) W ((x <= 0))" (fun _ _ => 0) 0 "E ((x >= 1)) W ((x <= 0))"
        = max
          (euEvaluate 3 [0, 1] (fun _ => [0, 1]) (fun _ => [0, 1])
            "(x >= 1)" "(x <= 0)" "E ((x >= 1)) U ((x <= 0))"
            (egEvaluate 3 [0, 1] (fun _ => [0, 1]) (fun _ => [0, 1])
              "(x >= 1)" "EG ((x >= 1))" (fun _ _ => 0)) 0 "EG ((x >= 1))")
          (euEvaluate 3 [0, 1] (fun _ => [0, 1]) (fun _ => [0, 1])
            "(x >= 1)" "(x <= 0)" "E ((x >= 1)) U ((x <= 0))"
            (egEvaluate 3 [0, 1] (fun _ => [0, 1]) (fun _ => [0, 1])
              "(x >= 1)" "EG ((x >= 1))" (fun _ _ => 0)) 0
            "E ((x >= 1)) U ((x <= 0))")
      ∧ euEvaluate 3 [0, 1] (fun _ => [0, 1]) (fun _ => [0, 1])
            "(x >= 1)" "(x <= 0)" "E ((x >= 1)) U ((x <= 0))"
            (egEvaluate 3 [0, 1] (fun _ => [0, 1]) (fun _ => [0, 1])
              "(x >= 1)" "EG ((x >= 1))" (fun _ _ => 0)) 0 "EG ((x >= 1))"
          = egEvaluate 3 [0, 1] (fun _ => [0, 1]) (fun _ => [0, 1])
              "(x >= 1)" "EG ((x >= 1))" (fun _ _ => 0) 0 "EG ((x >= 1))") :=
  weak_until_max_of_components 3 ([0, 1] : List ℕ)
    (fun _ => [0, 1]) (fun _ => [0, 1])
    "(x >= 1)" "(x <= 0)" "AG ((x >= 1))" "A ((x >= 1)) U ((x <= 0))"
    "A ((x >= 1)) W ((x <= 0))" "EG ((x >= 1))" "E ((x >= 1)) U ((x <= 0))"
    "E ((x >= 1)) W ((x <= 0))" (fun _ _ => 0) 0 (by decide)
    (by decide) (by decide) (by decide) (by decide) (by decide) (by decide)

/-- A mid-loop configuration of `AG.evaluate` for `AG (p)`: state `0`
has the successor `1` and the predecessor `2`; the loop has already
lowered `L[1][AG (p)]` to `-2` while the operand labels are
unchanged. -/
def agConfSucc : ℕ → List ℕ := fun n => if n = 0 then [1] else [n]

/-- Predecessors of the configuration above. -/
def agConfPred : ℕ → List ℕ := fun n => if n = 0 then [2] else []

/-- The labelling of the configuration: `L[0][p] = L[0][AG (p)] = 2`,
`L[1][p] = 1`, `L[1][AG (p)] = -2`. -/
def agConfT : Table ℕ := fun n k =>
  if k = "AG (p)" then (if n = 1 then (-2 : ℚ) else 2)
  else if k = "p" then (if n = 1 then (1 : ℚ) else 2) else 0

/-- C2, evaluated at the failing configuration: when state `0` is
extracted, the claim's propagated minimum is
`m = min over successors of L[t][AG (p)] = -2`, which should be written
and pushed to the predecessor `2`.  The loop body instead computes the
minimum of the successors' **operand** labels (`1`), writes that, and
pushes the extracted state's own operand label (`2`) to the
predecessor — neither equals `m`. -/
theorem ag_iter_pushes_operand_value :
    agIter agConfSucc agConfPred "p" "AG (p)" agConfT [((0 : ℕ), (-2 : ℚ))]
      = some (writeT agConfT 0 "AG (p)" 1, [((2 : ℕ), (2 : ℚ))])
      ∧ (writeT agConfT 0 "AG (p)" 1) 0 "AG (p)" = 1
      ∧ qlookup [((2 : ℕ), (2 : ℚ))] 2 = some 2
      ∧ minList ((agConfSucc 0).map (fun t => agConfT t "AG (p)")) = -2
      ∧ ((1 : ℚ) ≠ -2) ∧ ((2 : ℚ) ≠ -2) := by
  refine ⟨rfl, by decide, by decide, by decide, by decide, by decide⟩

end CTLSat
